import Mathlib

/-!
Verification development for the picogen static-site generator
(`src/picogen.py`).  The Python source is shallowly embedded: Python
dicts become association lists over `String` keys (insertion order and
first-match lookup preserved), Python `None`-able results become
`Option`, and operations that can raise (`KeyError`, `IndexError`,
duplicate keyword arguments) return `Option` with `none` for the raise.
External libraries (markdown converters, BeautifulSoup, unidecode) are
parameters of the model.
-/

namespace Picogen

/-- Python `\s` for the ASCII range: the whitespace class used by
`re` in `fill` and by `str.strip` / `str.splitlines`. -/
def isPySpace (c : Char) : Bool :=
  c = ' ' || c = '\t' || c = '\n' || c = '\x0d' || c = '\x0b' || c = '\x0c'

/-- Characters admissible inside a placeholder name: the regex class
`[^}\s]` of `fill` (anything that is neither `}` nor whitespace). -/
def isNameChar (c : Char) : Bool :=
  !isPySpace c && c != '}'

/-- Python `str.split(sep)` for a one-character separator, on char
lists: split at every occurrence, keeping empty pieces. -/
def splitChar (sep : Char) : List Char → List (List Char)
  | [] => [[]]
  | c :: cs =>
    match splitChar sep cs with
    | [] => [[]]
    | p :: ps => if c = sep then [] :: p :: ps else (c :: p) :: ps

/-- Python `str.split(sep)` on strings (single-character separator). -/
def pySplitStr (sep : Char) (s : String) : List String :=
  (splitChar sep s.toList).map (fun l => String.mk l)

/-- Python `str.strip()` on char lists: drop whitespace on both ends. -/
def stripChars (l : List Char) : List Char :=
  ((l.dropWhile isPySpace).reverse.dropWhile isPySpace).reverse

/-- Python `str.strip()` on strings. -/
def pyStrip (s : String) : String :=
  String.mk (stripChars s.toList)

/-- Python `str.lower()` (ASCII behaviour). -/
def pyLower (s : String) : String :=
  String.mk (s.toList.map Char.toLower)

/-- Python `str.splitlines()` restricted to `\n` separators (the only line
terminator produced by the generator's inputs): split on `\n`, with a
trailing terminator producing no extra empty line. -/
def pySplitlines (s : String) : List String :=
  match s.toList with
  | [] => []
  | l =>
    let parts := splitChar '\n' l
    (if parts.getLast? = some [] then parts.dropLast else parts).map
      (fun p => String.mk p)

/-- Model of `normalize_string` of the source: remove accents (`unidecode`,
modelled as the identity because the model works on ASCII data),
lowercase, and replace spaces with hyphens. -/
def normalize_string (s : String) : String :=
  String.mk (s.toList.map (fun c =>
    let lc := c.toLower
    if lc = ' ' then '-' else lc))

/-! ### Python dicts as association lists -/

/-- A Python dict with string keys: association list in insertion
order, keys unique by construction.  `Scope` instantiates the values
to strings (every value substituted by `fill` goes through `str`, so
the model stores the `str` form). -/
abbrev Dict (α : Type) := List (String × α)

abbrev Scope := Dict String

/-- Dict lookup `d[k]` / `d.get(k)`: the first (only) entry with key
`k`. -/
def alookup {α : Type} (d : Dict α) (k : String) : Option α :=
  (d.find? (fun p => p.1 == k)).map (fun p => p.2)

/-- Python `a if a is not None else b` on options (used to state lookup
precedence). -/
def oOr {α : Type} (a b : Option α) : Option α :=
  match a with
  | some v => some v
  | none => b

/-- Dict assignment (store under the key): overwrite in place if the key exists,
else append at the end (Python insertion order). -/
def dset {α : Type} : Dict α → String → α → Dict α
  | [], k, v => [(k, v)]
  | (k', v') :: rest, k, v =>
    if k' = k then (k', v) :: rest else (k', v') :: dset rest k v

/-- Python dict merge (the second dict written after the first): entries of `a` not overridden by `b`,
followed by `b`.  Lookup agrees with Python: `b` wins on shared keys. -/
def dmerge {α : Type} (a b : Dict α) : Dict α :=
  a.filter (fun p => (alookup b p.1).isNone) ++ b

/-- Python `dict.pop(k)`: remove the (first) entry with key `k`. -/
def dpop {α : Type} (d : Dict α) (k : String) : Dict α :=
  d.eraseP (fun p => p.1 == k)

theorem alookup_nil {α : Type} (k : String) : alookup ([] : Dict α) k = none := rfl

theorem alookup_cons {α : Type} (k' : String) (v' : α) (d : Dict α) (k : String) :
    alookup ((k', v') :: d) k = if k' = k then some v' else alookup d k := by
  by_cases h : k' = k
  · subst h; simp [alookup, List.find?]
  · simp only [alookup, List.find?]
    rw [show (k' == k) = false from beq_eq_false_iff_ne.mpr h]
    simp [h]

theorem alookup_append {α : Type} (a b : Dict α) (k : String) :
    alookup (a ++ b) k = oOr (alookup a k) (alookup b k) := by
  induction a with
  | nil => simp [alookup_nil, oOr]
  | cons hd tl ih =>
    rcases hd with ⟨k', v'⟩
    rw [List.cons_append, alookup_cons, alookup_cons]
    by_cases h : k' = k
    · simp [h, oOr]
    · simp [h, ih]

theorem alookup_dset_self {α : Type} (d : Dict α) (k : String) (v : α) :
    alookup (dset d k v) k = some v := by
  induction d with
  | nil => simp [dset, alookup_cons]
  | cons hd tl ih =>
    rcases hd with ⟨k', v'⟩
    by_cases h : k' = k
    · simp [dset, h, alookup_cons]
    · simp [dset, h, alookup_cons, ih]

theorem alookup_dset_ne {α : Type} (d : Dict α) (k k' : String) (v : α)
    (h : k' ≠ k) : alookup (dset d k v) k' = alookup d k' := by
  induction d with
  | nil =>
    rw [dset, alookup_cons, alookup_nil, if_neg (Ne.symm h)]
  | cons hd tl ih =>
    rcases hd with ⟨k0, v0⟩
    by_cases h0 : k0 = k
    · subst h0
      rw [dset, if_pos rfl, alookup_cons, alookup_cons, if_neg (fun hh => h hh.symm),
        if_neg (fun hh => h hh.symm)]
    · rw [dset, if_neg h0, alookup_cons, alookup_cons, ih]

theorem alookup_filter_keys {α : Type} (a : Dict α) (p : String → Bool) (k : String) :
    alookup (a.filter (fun q => p q.1)) k
      = if p k then alookup a k else none := by
  induction a with
  | nil => simp [alookup_nil]
  | cons hd tl ih =>
    rcases hd with ⟨k', v'⟩
    by_cases hp : p k'
    · rw [List.filter_cons_of_pos (by simpa using hp), alookup_cons, alookup_cons]
      by_cases hk : k' = k
      · subst hk; simp [hp]
      · simp [hk, ih]
    · rw [List.filter_cons_of_neg (by simpa using hp), alookup_cons, ih]
      by_cases hk : k' = k
      · subst hk; simp [hp]
      · simp [hk]

/-- Lookup through a Python dict merge: the right dict wins. -/
theorem alookup_dmerge {α : Type} (a b : Dict α) (k : String) :
    alookup (dmerge a b) k = oOr (alookup b k) (alookup a k) := by
  rw [dmerge, alookup_append]
  have hf := alookup_filter_keys a (fun q => (alookup b q).isNone) k
  rcases hb : alookup b k with _ | v
  · rw [hf, hb]
    cases alookup a k <;> simp [oOr]
  · rw [hf, hb]
    simp [oOr]

theorem alookup_dpop_ne {α : Type} (d : Dict α) (k k' : String) (h : k' ≠ k) :
    alookup (dpop d k) k' = alookup d k' := by
  induction d with
  | nil => rfl
  | cons hd tl ih =>
    rcases hd with ⟨k0, v0⟩
    by_cases h0 : k0 = k
    · subst h0
      rw [dpop, List.eraseP_cons_of_pos (by simp), alookup_cons,
        if_neg (fun hh => h hh.symm)]
    · rw [dpop, List.eraseP_cons_of_neg (by simpa using h0), alookup_cons, alookup_cons]
      by_cases hk : k0 = k'
      · simp [hk]
      · simpa [hk] using ih

/-! ### The placeholder filler `fill`

`fill` is Python `re.sub` with the pattern `{{\s*([^}\s]+)\s*}}`.  For this
pattern the regex engine is deterministic: at a match start, `\s*`
must take the maximal whitespace run (the following `[^}\s]+` cannot
match whitespace), `[^}\s]+` must take the maximal name run (after a
shorter run the next char is still a name char, so neither `\s*` nor
`}` can match), the second `\s*` again takes the maximal whitespace
run, and then the literal braces must follow.  `tryToken` is that
deterministic leftmost-match attempt at the head of the input. -/

/-- Attempt to match `{{\\s*([^}\\s]+)\\s*}}` at the head of `l`.
Returns `(whole match, group 1, remaining input)` on success. -/
def tryToken (l : List Char) : Option (List Char × List Char × List Char) :=
  match l with
  | '{' :: '{' :: s =>
    if ((s.dropWhile isPySpace).takeWhile isNameChar).isEmpty then none
    else
      match ((s.dropWhile isPySpace).dropWhile isNameChar).dropWhile isPySpace with
      | '}' :: '}' :: rest =>
        some ('{' :: '{' :: (s.takeWhile isPySpace
            ++ (s.dropWhile isPySpace).takeWhile isNameChar
            ++ ((s.dropWhile isPySpace).dropWhile isNameChar).takeWhile isPySpace
            ++ ['}', '}']),
          (s.dropWhile isPySpace).takeWhile isNameChar, rest)
      | _ => none
  | _ => none

theorem tryToken_some_length {l w n r : List Char}
    (h : tryToken l = some (w, n, r)) : r.length < l.length := by
  unfold tryToken at h
  split at h
  case h_2 => exact absurd h (by simp)
  rename_i s
  split at h
  · exact absurd h (by simp)
  split at h
  case h_2 => exact absurd h (by simp)
  rename_i rest heq
  simp only [Option.some.injEq, Prod.mk.injEq] at h
  obtain ⟨-, -, hr⟩ := h
  subst hr
  have h1 : (((s.dropWhile isPySpace).dropWhile isNameChar).dropWhile isPySpace).length
      = rest.length + 2 := by rw [heq]; simp
  have h2 : (((s.dropWhile isPySpace).dropWhile isNameChar).dropWhile isPySpace).length
      ≤ s.length := by
    calc (((s.dropWhile isPySpace).dropWhile isNameChar).dropWhile isPySpace).length
        ≤ ((s.dropWhile isPySpace).dropWhile isNameChar).length :=
          (List.dropWhile_sublist _).length_le
      _ ≤ (s.dropWhile isPySpace).length := (List.dropWhile_sublist _).length_le
      _ ≤ s.length := (List.dropWhile_sublist _).length_le
  simp only [List.length_cons]
  omega

/-- The scanning loop of `re.sub` with fuel (one unit per consumed
match or literal character); `fill` instantiates the fuel with the
template length, which always suffices. -/
def fillGo (scope : Scope) : Nat → List Char → List Char
  | _, [] => []
  | 0, c :: cs => c :: cs
  | fuel + 1, c :: cs =>
    match tryToken (c :: cs) with
    | some (w, n, r) =>
      (match alookup scope (String.mk n) with
       | some v => v.toList
       | none => w) ++ fillGo scope fuel r
    | none => c :: fillGo scope fuel cs

/-- Model of `fill(tpl, **variables)` of the source, on char lists: substitute
every `{{ name }}` token whose name is in scope, emit everything else
(unmatched tokens included) unchanged. -/
def fill (scope : Scope) (tpl : List Char) : List Char :=
  fillGo scope tpl.length tpl

/-- Wrapper for `fill` on strings. -/
def fillS (scope : Scope) (tpl : String) : String :=
  String.mk (fill scope tpl.toList)

theorem fillGo_fuel_irrelevant (scope : Scope) :
    ∀ f1 f2 tpl, tpl.length ≤ f1 → tpl.length ≤ f2 →
      fillGo scope f1 tpl = fillGo scope f2 tpl := by
  intro f1
  induction f1 with
  | zero =>
    intro f2 tpl h1 _
    have : tpl = [] := List.length_eq_zero.mp (Nat.le_zero.mp h1)
    subst this
    cases f2 <;> rfl
  | succ f ih =>
    intro f2 tpl h1 h2
    match tpl with
    | [] => cases f2 <;> rfl
    | c :: cs =>
      match f2 with
      | 0 => exact absurd h2 (by simp)
      | f2' + 1 =>
        rcases htt : tryToken (c :: cs) with _ | ⟨w, n, r⟩
        · have hlen : cs.length ≤ f := by
            simp only [List.length_cons] at h1; omega
          have hlen2 : cs.length ≤ f2' := by
            simp only [List.length_cons] at h2; omega
          simp only [fillGo, htt]
          rw [ih f2' cs hlen hlen2]
        · have hr := tryToken_some_length htt
          have hlen : r.length ≤ f := by
            simp only [List.length_cons] at h1 hr; omega
          have hlen2 : r.length ≤ f2' := by
            simp only [List.length_cons] at h2 hr; omega
          simp only [fillGo, htt]
          rw [ih f2' r hlen hlen2]

/-- Step equation: a literal character (no token starts here) is
emitted unchanged. -/
theorem fill_cons_of_none (scope : Scope) (c : Char) (cs : List Char)
    (h : tryToken (c :: cs) = none) :
    fill scope (c :: cs) = c :: fill scope cs := by
  rw [fill, fill, List.length_cons]
  simp only [fillGo, h]

/-- Step equation: a matched token is replaced (scope hit: by the
value; scope miss: by the whole matched text), and scanning resumes
after the token. -/
theorem fill_cons_of_some (scope : Scope) (tpl w n r : List Char)
    (h : tryToken tpl = some (w, n, r)) :
    fill scope tpl =
      (match alookup scope (String.mk n) with
       | some v => v.toList
       | none => w) ++ fill scope r := by
  match tpl with
  | [] => simp [tryToken] at h
  | c :: cs =>
    rw [fill, fill, List.length_cons]
    simp only [fillGo, h]
    have hr := tryToken_some_length h
    rw [fillGo_fuel_irrelevant scope cs.length r.length r
      (by simp only [List.length_cons] at hr; omega) (Nat.le_refl _)]

theorem fill_nil (scope : Scope) : fill scope [] = [] := rfl

theorem takeWhile_append_all {p : Char → Bool} {l1 : List Char} (l2 : List Char)
    (h : ∀ c ∈ l1, p c = true) :
    (l1 ++ l2).takeWhile p = l1 ++ l2.takeWhile p := by
  induction l1 with
  | nil => simp
  | cons a l ih =>
    rw [List.cons_append, List.takeWhile_cons, h a (by simp), ih (fun c hc => h c (by simp [hc]))]
    simp

theorem dropWhile_append_all {p : Char → Bool} {l1 : List Char} (l2 : List Char)
    (h : ∀ c ∈ l1, p c = true) :
    (l1 ++ l2).dropWhile p = l2.dropWhile p := by
  induction l1 with
  | nil => simp
  | cons a l ih =>
    rw [List.cons_append, List.dropWhile_cons, h a (by simp), if_pos rfl,
      ih (fun c hc => h c (by simp [hc]))]

theorem takeWhile_cons_neg {p : Char → Bool} {c : Char} (l : List Char)
    (h : p c = false) : (c :: l).takeWhile p = [] := by
  rw [List.takeWhile_cons, h]; rfl

theorem dropWhile_cons_neg {p : Char → Bool} {c : Char} (l : List Char)
    (h : p c = false) : (c :: l).dropWhile p = c :: l := by
  rw [List.dropWhile_cons, h]; rfl

theorem isPySpace_false_of_isNameChar {c : Char} (h : isNameChar c = true) :
    isPySpace c = false := by
  unfold isNameChar at h
  cases hps : isPySpace c
  · rfl
  · rw [hps] at h; simp at h

theorem isNameChar_false_of_isPySpace {c : Char} (h : isPySpace c = true) :
    isNameChar c = false := by
  unfold isNameChar
  rw [h]; rfl

/-- Matching lemma: on input `{{` ++ whitespace ++ name ++ whitespace ++ `}}` ++ rest,
the regex matches at the head with group 1 = name and leaves exactly
`rest` unscanned. -/
theorem tryToken_token (ws1 ws2 name rest : List Char)
    (hname : name ≠ []) (hnc : ∀ c ∈ name, isNameChar c = true)
    (hw1 : ∀ c ∈ ws1, isPySpace c = true) (hw2 : ∀ c ∈ ws2, isPySpace c = true) :
    tryToken ('{' :: '{' :: (ws1 ++ (name ++ (ws2 ++ '}' :: '}' :: rest))))
      = some ('{' :: '{' :: (ws1 ++ (name ++ (ws2 ++ ['}', '}']))), name, rest) := by
  have hdw1 : (ws1 ++ (name ++ (ws2 ++ '}' :: '}' :: rest))).dropWhile isPySpace
      = name ++ (ws2 ++ '}' :: '}' :: rest) := by
    rw [dropWhile_append_all _ hw1]
    match name with
    | [] => exact absurd rfl hname
    | n0 :: ntl =>
      exact dropWhile_cons_neg _ (isPySpace_false_of_isNameChar (hnc n0 (by simp)))
  have htw1 : (ws1 ++ (name ++ (ws2 ++ '}' :: '}' :: rest))).takeWhile isPySpace = ws1 := by
    rw [takeWhile_append_all _ hw1]
    match name with
    | [] => exact absurd rfl hname
    | n0 :: ntl =>
      rw [List.cons_append, takeWhile_cons_neg _ (isPySpace_false_of_isNameChar (hnc n0 (by simp)))]
      simp
  have hwsbrace : (ws2 ++ '}' :: '}' :: rest).takeWhile isNameChar = [] := by
    match ws2 with
    | [] => exact takeWhile_cons_neg _ (by decide)
    | w0 :: wtl =>
      exact takeWhile_cons_neg _ (isNameChar_false_of_isPySpace (hw2 w0 (by simp)))
  have hwsbraced : (ws2 ++ '}' :: '}' :: rest).dropWhile isNameChar = ws2 ++ '}' :: '}' :: rest := by
    match ws2 with
    | [] => exact dropWhile_cons_neg _ (by decide)
    | w0 :: wtl =>
      exact dropWhile_cons_neg _ (isNameChar_false_of_isPySpace (hw2 w0 (by simp)))
  have htwn : (name ++ (ws2 ++ '}' :: '}' :: rest)).takeWhile isNameChar = name := by
    rw [takeWhile_append_all _ hnc, hwsbrace, List.append_nil]
  have hdwn : (name ++ (ws2 ++ '}' :: '}' :: rest)).dropWhile isNameChar
      = ws2 ++ '}' :: '}' :: rest := by
    rw [dropWhile_append_all _ hnc, hwsbraced]
  have htw2 : (ws2 ++ '}' :: '}' :: rest).takeWhile isPySpace = ws2 := by
    rw [takeWhile_append_all _ hw2, takeWhile_cons_neg _ (by decide), List.append_nil]
  have hdw2 : (ws2 ++ '}' :: '}' :: rest).dropWhile isPySpace = '}' :: '}' :: rest := by
    rw [dropWhile_append_all _ hw2, dropWhile_cons_neg _ (by decide)]
  simp only [tryToken]
  rw [hdw1, htwn, hdwn, hdw2, htw1, htw2]
  rw [if_neg (by simpa [List.isEmpty_iff] using hname)]
  simp [List.append_assoc]

/-- If no suffix of the template matches the token pattern, `fill` is
the identity, whatever the scope holds. -/
theorem fill_of_drops_none (scope : Scope) (tpl : List Char)
    (h : ∀ nn : Nat, tryToken (tpl.drop nn) = none) : fill scope tpl = tpl := by
  induction tpl with
  | nil => rfl
  | cons c cs ih =>
    have h0 : tryToken (c :: cs) = none := by simpa using h 0
    rw [fill_cons_of_none scope c cs h0]
    rw [ih (fun nn => by simpa using h (nn + 1))]

/-! ### Python `sorted`

`sorted(xs, key=k, reverse=rev)` is a stable comparison sort; we model
it as a stable insertion sort over the boolean comparator "is allowed
to stay before", which for Python is `k a <= k b` (`k b <= k a` when
`reverse=True`, preserving input order on ties). -/

def orderedInsertB {α : Type} (le : α → α → Bool) (a : α) : List α → List α
  | [] => [a]
  | b :: l => if le a b then a :: b :: l else b :: orderedInsertB le a l

def insertionSortB {α : Type} (le : α → α → Bool) : List α → List α
  | [] => []
  | b :: l => orderedInsertB le b (insertionSortB le l)

theorem orderedInsertB_perm {α : Type} (le : α → α → Bool) (a : α) (l : List α) :
    List.Perm (orderedInsertB le a l) (a :: l) := by
  induction l with
  | nil => exact List.Perm.refl _
  | cons b l ih =>
    rw [orderedInsertB]
    by_cases h : le a b
    · rw [if_pos h]
    · rw [if_neg h]
      exact (ih.cons b).trans (List.Perm.swap a b l)

theorem insertionSortB_perm {α : Type} (le : α → α → Bool) (l : List α) :
    List.Perm (insertionSortB le l) l := by
  induction l with
  | nil => exact List.Perm.refl _
  | cons b l ih =>
    exact (orderedInsertB_perm le b _).trans (ih.cons b)

theorem mem_orderedInsertB {α : Type} {le : α → α → Bool} {a x : α} {l : List α}
    (h : x ∈ orderedInsertB le a l) : x = a ∨ x ∈ l := by
  have h1 := (orderedInsertB_perm le a l).mem_iff.mp h
  simpa using h1

theorem pairwise_orderedInsertB {α : Type} (le : α → α → Bool)
    (htot : ∀ a b, le a b = true ∨ le b a = true)
    (htrans : ∀ a b c, le a b = true → le b c = true → le a c = true)
    (b : α) (s : List α) (hs : s.Pairwise (fun a c => le a c = true)) :
    (orderedInsertB le b s).Pairwise (fun a c => le a c = true) := by
  induction s with
  | nil => simp [orderedInsertB]
  | cons c s ihs =>
    rcases List.pairwise_cons.mp hs with ⟨hc, hs'⟩
    rw [orderedInsertB]
    by_cases h : le b c
    · rw [if_pos h]
      refine List.pairwise_cons.mpr ⟨?_, hs⟩
      intro x hx
      rcases List.mem_cons.mp hx with rfl | hx
      · exact h
      · exact htrans b c x h (hc x hx)
    · rw [if_neg h]
      refine List.pairwise_cons.mpr ⟨?_, ihs hs'⟩
      intro x hx
      rcases mem_orderedInsertB hx with hxb | hx
      · rw [hxb]
        rcases htot b c with hbc | hcb
        · exact absurd hbc h
        · exact hcb
      · exact hc x hx

/-- Insertion sort produces a `le`-pairwise-sorted list when `le` is
total and transitive. -/
theorem insertionSortB_pairwise {α : Type} (le : α → α → Bool)
    (htot : ∀ a b, le a b = true ∨ le b a = true)
    (htrans : ∀ a b c, le a b = true → le b c = true → le a c = true)
    (l : List α) : (insertionSortB le l).Pairwise (fun a b => le a b = true) := by
  induction l with
  | nil => exact List.Pairwise.nil
  | cons b l ih =>
    rw [insertionSortB]
    exact pairwise_orderedInsertB le htot htrans b _ ih

/-- Python's `key=`/`reverse=` comparator: keep `a` before `b` iff
`key a <= key b`, flipped when `reverse=True` (ties keep input order
either way, which matches Python's stable sort). -/
def pyLe {α κ : Type} [LinearOrder κ] (key : α → κ) (rev : Bool) (a b : α) : Bool :=
  if rev then decide (key b ≤ key a) else decide (key a ≤ key b)

/-- Python `sorted(xs, key=key, reverse=rev)`. -/
def pySorted {α κ : Type} [LinearOrder κ] (key : α → κ) (rev : Bool) (l : List α) : List α :=
  insertionSortB (pyLe key rev) l

theorem pyLe_total {α κ : Type} [LinearOrder κ] (key : α → κ) (rev : Bool) :
    ∀ a b, pyLe key rev a b = true ∨ pyLe key rev b a = true := by
  intro a b
  cases rev <;> simp [pyLe] <;> exact le_total _ _

theorem pyLe_trans {α κ : Type} [LinearOrder κ] (key : α → κ) (rev : Bool) :
    ∀ a b c, pyLe key rev a b = true → pyLe key rev b c = true → pyLe key rev a c = true := by
  intro a b c
  cases rev <;> simp [pyLe] <;> intro h1 h2
  · exact le_trans h1 h2
  · exact le_trans h2 h1

theorem pySorted_perm {α κ : Type} [LinearOrder κ] (key : α → κ) (rev : Bool) (l : List α) :
    List.Perm (pySorted key rev l) l :=
  insertionSortB_perm _ l

theorem pySorted_pairwise {α κ : Type} [LinearOrder κ] (key : α → κ) (rev : Bool) (l : List α) :
    (pySorted key rev l).Pairwise (fun a b => pyLe key rev a b = true) :=
  insertionSortB_pairwise _ (pyLe_total key rev) (pyLe_trans key rev) l

/-! ### Protocols, descriptors, external converters -/

/-- The `Protocol` enum of the source. -/
inductive Protocol : Type
  | http : Protocol
  | gemini : Protocol
deriving DecidableEq

/-- Model of `Protocol.file_suffix`. -/
def Protocol.file_suffix : Protocol → String
  | Protocol.http => "html"
  | Protocol.gemini => "gmi"

/-- Model of `Protocol.scheme`. -/
def Protocol.scheme : Protocol → Bool → String
  | Protocol.http, is_ssl => if is_ssl then "https" else "http"
  | Protocol.gemini, _ => "gemini"

/-- The accumulation loop of `summarize` for the Gemini protocol:
`result` starts empty; a non-blank line is appended as
`"\n".join((result, line))`; the first blank line after a non-empty
`result` returns it; blank lines before content are skipped.  If the
loop finishes without returning, the Python function falls off its end
and returns `None` (here `none`). -/
def summarizeLoop : String → List String → Option String
  | _, [] => none
  | result, line :: rest =>
    if result ≠ "" ∧ line = "" then some result
    else if line = "" then summarizeLoop result rest
    else summarizeLoop (result ++ "\n" ++ line) rest

/-- Model of `summarize(body, Protocol.GEMINI)` of the source. -/
def summarizeGemini (body : String) : Option String :=
  summarizeLoop "" (pySplitlines body)

/-- The external body-conversion and HTML-summary collaborators
(`commonmark` / `md2gemini` / BeautifulSoup), which are third-party
libraries, enter the model as opaque parameters. -/
structure Converters : Type where
  mdConvert : Protocol → String → String
  httpSummarize : String → Option String

/-- Model of `summarize(body, body_format)`: Gemini bodies use the line loop
above; HTTP bodies delegate to the external first-`<p>` extractor. -/
def summarize (cv : Converters) (body : String) : Protocol → Option String
  | Protocol.gemini => summarizeGemini body
  | Protocol.http => cv.httpSummarize body

/-- A file descriptor: the annotation/body/derived-field dict of
`assemble_file_descriptor`.  Values are stored in their `str` form
(they are only ever consumed through `str` by `fill`). -/
abbrev Desc := Scope

/-- Lookup `d[k]` where the caller knows the key is present (the claims under
verification only evaluate present keys; a Python `KeyError` is out of
scope here and the default is never observed in the theorems). -/
def dget (d : Desc) (k : String) : String :=
  (alookup d k).getD ""

/-- Model of `convert_and_fill_body(descriptor, protocol, **variables)`:
fill the body against the scope, convert markdown bodies through the
external converter, then store the summary (a Python `None` summary is
stored in its `str` form `"None"`, which is how `fill` would render
it). -/
def convert_and_fill_body (cv : Converters) (descriptor : Desc) (protocol : Protocol)
    (varscope : Scope) : Desc :=
  let d1 := dset descriptor "body" (fillS varscope (dget descriptor "body"))
  let d2 := if dget d1 "file_ext" = "markdown" ∨ dget d1 "file_ext" = "md"
    then dset d1 "body" (cv.mdConvert protocol (dget d1 "body"))
    else d1
  dset d2 "summary" ((summarize cv (dget d2 "body") protocol).getD "None")

/-! ### Configuration records

Python passes taxonomy / index / value-list configs as dicts with
optional keys; `'k' in cfg` checks become `Option` fields. -/

structure TaxonomyConfig : Type where
  id : String
  title : String
  document_template : Option String

structure IndexConfig : Type where
  id : String
  template : String
  item_template : String
  order_by : Option String
  order_direction : Option String
  limit : Option Nat
  custom_variables : List (String × String)

structure ValueListConfig : Type where
  id : String
  template : String
  item_template : String
  order_by : Option String
  order_direction : Option String
  limit : Option Nat
  inlined_index_id : Option String

/-- Helper `mapMOption f l`: run a fallible step over a list, failing (like
an uncaught Python exception in a loop) as soon as one step fails. -/
def mapMOption {α β : Type} (f : α → Option β) : List α → Option (List β)
  | [] => some []
  | a :: l =>
    match f a with
    | none => none
    | some b =>
      match mapMOption f l with
      | none => none
      | some bs => some (b :: bs)

theorem mapMOption_eq_none_of_mem {α β : Type} {f : α → Option β} {l : List α} {a : α}
    (ha : a ∈ l) (hf : f a = none) : mapMOption f l = none := by
  induction l with
  | nil => cases ha
  | cons x xs ih =>
    rcases List.mem_cons.mp ha with rfl | ha'
    · simp [mapMOption, hf]
    · rw [mapMOption]
      cases f x
      · rfl
      · rw [ih ha']

/-! ### `fill_index` (Value Index generator) -/

/-- Sort key of a Value Index: `order_by`, defaulting to `date`. -/
def indexSortKey (cfg : IndexConfig) : String :=
  cfg.order_by.getD "date"

/-- Sort direction: descending (`reverse=True`) unless
`order_direction` is exactly `asc`. -/
def indexReverse (cfg : IndexConfig) : Bool :=
  if cfg.order_direction = some "asc" then false else true

/-- The `sorted(...)` call of `fill_index`. -/
def indexSorted (cfg : IndexConfig) (dbt : List Desc) : List Desc :=
  pySorted (fun d => dget d (indexSortKey cfg)) (indexReverse cfg) dbt

/-- The sorted list truncated by `limit` (`dbt[0:limit]`, where a
missing limit is `len(dbt)`, i.e. no truncation). -/
def indexRetained (cfg : IndexConfig) (dbt : List Desc) : List Desc :=
  match cfg.limit with
  | some n => (indexSorted cfg dbt).take n
  | none => indexSorted cfg dbt

/-- The item-rendering scope of `fill_index`:
`{**config, **taxonomy_variables, **term_variables,
**output_variables, **dynamic_vars, **d}`. -/
def indexItemScope (config taxonomy_variables term_variables output_variables
    dynamic_vars d : Scope) : Scope :=
  dmerge (dmerge (dmerge (dmerge (dmerge config taxonomy_variables) term_variables)
    output_variables) dynamic_vars) d

/-- The wrapper-rendering scope of `fill_index` (no descriptor layer). -/
def indexWrapperScope (config taxonomy_variables term_variables output_variables
    dynamic_vars : Scope) : Scope :=
  dmerge (dmerge (dmerge (dmerge config taxonomy_variables) term_variables)
    output_variables) dynamic_vars

/-- The per-value `term_variables` dict built at the top of
`fill_index`. -/
def indexTermVariables (taxonomy_config : TaxonomyConfig) (tvalue : String) : Scope :=
  [("taxonomy_value", tvalue),
   ("taxonomy_value_lower", pyLower tvalue),
   ("taxonomy_value_normalized", normalize_string tvalue),
   ("title", taxonomy_config.title ++ " " ++ tvalue)]

/-- Model of `fill_index` of the source.  Dict subscripts that can raise
`KeyError` (taxonomy map, taxonomy value, template names) return
`none`. -/
def fill_index (cv : Converters) (protocol : Protocol) (config : Scope)
    (taxonomy_config : TaxonomyConfig) (templates : Dict String) (tid : String)
    (tvalue : String) (index_config : IndexConfig) (taxonomy_variables : Scope)
    (descriptors_by_taxonomies : Dict (Dict (List Desc)))
    (dynamic_vars : Scope) (output_variables : Scope) : Option String :=
  let term_variables := indexTermVariables taxonomy_config tvalue
  match alookup descriptors_by_taxonomies tid with
  | none => none
  | some tmap =>
    match alookup tmap tvalue with
    | none => none
    | some dbt0 =>
      match mapMOption (fun d =>
          let v := indexItemScope config taxonomy_variables term_variables
            output_variables dynamic_vars d
          let d2 := convert_and_fill_body cv d protocol v
          let v2 := indexItemScope config taxonomy_variables term_variables
            output_variables dynamic_vars d2
          match alookup templates index_config.item_template with
          | none => none
          | some item_tpl => some (fillS v2 item_tpl))
        (indexRetained index_config dbt0) with
      | none => none
      | some item_outputs =>
        let term_variables2 := dset term_variables "body" (String.join item_outputs)
        let v := indexWrapperScope config taxonomy_variables term_variables2
          output_variables dynamic_vars
        let term_variables3 := index_config.custom_variables.foldl
          (fun tv kv => dset tv kv.1 (fillS v kv.2)) term_variables2
        let v2 := indexWrapperScope config taxonomy_variables term_variables3
          output_variables dynamic_vars
        match alookup templates index_config.template with
        | none => none
        | some tpl => some (fillS v2 tpl)

/-! ### `fill_value_list` (Value List generator) -/

/-- Bucket size `len(descriptors_by_taxonomies[tid][key])` with a `0` default
(only evaluated at keys of the map). -/
def countOf (tmap : Dict (List Desc)) (k : String) : Nat :=
  ((alookup tmap k).getD []).length

/-- Test for order_by equal to count. -/
def vlSortByCount (vl : ValueListConfig) : Bool :=
  if vl.order_by = some "count" then true else false

/-- Descending unless `order_direction` is exactly `asc`. -/
def vlReverse (vl : ValueListConfig) : Bool :=
  if vl.order_direction = some "asc" then false else true

/-- The value set of the taxonomy, sorted only when `order_direction`
is configured — by per-value document count when `order_by` is `count`,
alphabetically otherwise. -/
def vlSortedKeys (vl : ValueListConfig) (tmap : Dict (List Desc)) : List String :=
  let keys := tmap.map (fun p => p.1)
  if vl.order_direction = none then keys
  else if vlSortByCount vl then pySorted (fun k => countOf tmap k) (vlReverse vl) keys
  else pySorted (fun k => k) (vlReverse vl) keys

/-- Truncation `taxonomy_keys[0:int(limit)]` (missing limit: whole list). -/
def vlRetainedKeys (vl : ValueListConfig) (tmap : Dict (List Desc)) : List String :=
  match vl.limit with
  | some n => (vlSortedKeys vl tmap).take n
  | none => vlSortedKeys vl tmap

/-- The per-value `term_variables` of `fill_value_list`, including the
hard lookup `output_variables[f"{id}_{inlined_index_id}_{normalized}"]`
when an inlined index is configured (`none` = the `KeyError`). -/
def vlTermVariables (taxonomy_config : TaxonomyConfig) (vl : ValueListConfig)
    (tmap : Dict (List Desc)) (output_variables : Scope) (term : String) : Option Scope :=
  let base : Scope :=
    [("taxonomy_value", term),
     ("taxonomy_value_lower", pyLower term),
     ("taxonomy_value_normalized", normalize_string term),
     ("taxonomy_value_posts_count", toString (countOf tmap term))]
  match vl.inlined_index_id with
  | none => some base
  | some iid =>
    match alookup output_variables
        (taxonomy_config.id ++ "_" ++ iid ++ "_" ++ normalize_string term) with
    | none => none
    | some v => some (dset base "taxonomy_value_list" v)

/-- Model of `fill_value_list` of the source. -/
def fill_value_list (config : Scope) (taxonomy_config : TaxonomyConfig)
    (templates : Dict String) (tid : String) (value_list_config : ValueListConfig)
    (descriptors_by_taxonomies : Dict (Dict (List Desc)))
    (dynamic_vars : Scope) (output_variables : Scope) : Option String :=
  let taxonomy_variables : Scope :=
    [("taxonomy_id", tid),
     ("taxonomy_title", taxonomy_config.title),
     ("title", taxonomy_config.title)]
  match alookup descriptors_by_taxonomies tid with
  | none => none
  | some tmap =>
    match mapMOption (fun term =>
        match vlTermVariables taxonomy_config value_list_config tmap output_variables term with
        | none => none
        | some term_variables =>
          match alookup templates value_list_config.item_template with
          | none => none
          | some item_tpl =>
            some (fillS (dmerge (dmerge (dmerge config taxonomy_variables) term_variables)
              dynamic_vars) item_tpl))
      (vlRetainedKeys value_list_config tmap) with
    | none => none
    | some item_outputs =>
      let taxonomy_variables2 := dset taxonomy_variables "body" (String.join item_outputs)
      match alookup templates value_list_config.template with
      | none => none
      | some tpl =>
        some (fillS (dmerge (dmerge config taxonomy_variables2) dynamic_vars) tpl)

/-- The variable-output Value-List phase of `main` (lines 582-598):
each generated list is stored in the pool under
`f"{taxonomy id}_{value list id}"`; a failed generation aborts the
phase (an uncaught exception stops the format's run). -/
def runValueListVariablePhase (config : Scope) (templates : Dict String)
    (descriptors_by_taxonomies : Dict (Dict (List Desc))) (dynamic_vars : Scope) :
    List (TaxonomyConfig × ValueListConfig) → Scope → Option Scope
  | [], pool => some pool
  | (tc, vl) :: rest, pool =>
    match fill_value_list config tc templates tc.id vl descriptors_by_taxonomies
        dynamic_vars pool with
    | none => none
    | some out =>
      runValueListVariablePhase config templates descriptors_by_taxonomies dynamic_vars
        rest (dset pool (tc.id ++ "_" ++ vl.id) out)

/-! ### The template composer (`main`, lines 427-433) -/

/-- One iteration of the parent/child template merge, for a template
name containing `_`: look up the parent (`name.split('_')[1]`), pop
the child's entry, substitute the child's content into the parent's
`body` placeholder, and store the result under `name.split('_')[0]`. -/
def composeStep (templates : Dict String) (tpl_name : String) : Option (Dict String) :=
  let child_and_parent := pySplitStr '_' tpl_name
  match alookup templates (child_and_parent.getD 1 "") with
  | none => none
  | some parent_value =>
    match alookup templates tpl_name with
    | none => none
    | some child_value =>
      let templates2 := dpop templates tpl_name
      some (dset templates2 (child_and_parent.getD 0 "")
        (fillS [("body", child_value)] parent_value))

/-! ### The taxonomy grouper (`main`, lines 494-498) -/

/-- Append a descriptor to the bucket of one taxonomy value, creating
the empty bucket first when the value is new (dict insertion order). -/
def bucketAppend : Dict (List Desc) → String → Desc → Dict (List Desc)
  | [], v, d => [(v, [d])]
  | (k, l) :: rest, v, d =>
    if k = v then (k, l ++ [d]) :: rest else (k, l) :: bucketAppend rest v d

/-- Grouping loop of the source (split on commas, strip, append):
the per-descriptor grouping loop for one taxonomy annotation value. -/
def groupDescriptor (ann : String) (d : Desc) (buckets : Dict (List Desc)) :
    Dict (List Desc) :=
  (pySplitStr ',' ann).foldl (fun b value => bucketAppend b (pyStrip value) d) buckets

/-- The value set an annotation contributes to: split on commas, strip
each part. -/
def splitAndTrim (s : String) : List String :=
  (pySplitStr ',' s).map pyStrip

/-! ### Descriptor file-name assembly (`assemble_file_descriptor`) -/

/-- Model of `os.path.basename` (POSIX): everything after the last slash. -/
def basenamePosix (path : List Char) : List Char :=
  (splitChar '/' path).getLastD []

/-- The `file_name` / `file_ext` derivation
`os.path.basename(path).split('.')[0]` / `[1]`; `none` models the
`IndexError` raised when the base name has no dot. -/
def assembleNameExt (path : List Char) : Option (List Char × List Char) :=
  match splitChar '.' (basenamePosix path) with
  | a :: b :: _ => some (a, b)
  | _ => none

/-! ### Final per-document generation (`main`, lines 656-663) -/

/-- Python `f(**a, **b)`-style combination of two keyword-argument dicts:
Python raises `TypeError` (here `none`) when a key repeats. -/
def kwargsMerge (a b : Scope) : Option Scope :=
  if b.any (fun p => (alookup a p.1).isSome) then none else some (a ++ b)

/-- The scope of the final per-document rendering:
`fill(tpl, **d, **config, **dynamic_vars, **output_variables)` —
layers combined as keyword arguments in that order, duplicates being a
`TypeError`. -/
def finalDocScope (d config dynamic_vars output_variables : Scope) : Option Scope :=
  match kwargsMerge d config with
  | none => none
  | some s1 =>
    match kwargsMerge s1 dynamic_vars with
    | none => none
    | some s2 => kwargsMerge s2 output_variables

/-- One iteration of the final document loop: convert and fill the
body, then render the descriptor's template; returns the target path
and the rendered output. -/
def genDocumentFile (cv : Converters) (protocol : Protocol) (templates : Dict String)
    (config dynamic_vars output_variables : Scope) (d : Desc) : Option (String × String) :=
  match finalDocScope d config dynamic_vars output_variables with
  | none => none
  | some v =>
    let d2 := convert_and_fill_body cv d protocol v
    match finalDocScope d2 config dynamic_vars output_variables with
    | none => none
    | some v2 =>
      match alookup templates (dget d2 "template") with
      | none => none
      | some tpl => some (dget d2 "target_path", fillS v2 tpl)

/-! ## Claim theorems -/

/-- C2: for every scope, a placeholder `{{` + whitespace + name +
whitespace + `}}` (name nonempty, made of non-`}` non-whitespace
characters) is replaced by the scope's value when the name is a key of
the scope, and is emitted unchanged, byte for byte (braces and inner
whitespace included), when the name is absent; scanning resumes after
the token, so every occurrence is treated this way. -/
theorem c2_fill_placeholder (scope : Scope) (ws1 ws2 name rest : List Char)
    (hname : name ≠ []) (hnc : ∀ c ∈ name, isNameChar c = true)
    (hw1 : ∀ c ∈ ws1, isPySpace c = true) (hw2 : ∀ c ∈ ws2, isPySpace c = true) :
    (∀ v, alookup scope (String.mk name) = some v →
      fill scope ('{' :: '{' :: (ws1 ++ (name ++ (ws2 ++ '}' :: '}' :: rest))))
        = v.toList ++ fill scope rest)
    ∧ (alookup scope (String.mk name) = none →
      fill scope ('{' :: '{' :: (ws1 ++ (name ++ (ws2 ++ '}' :: '}' :: rest))))
        = ('{' :: '{' :: (ws1 ++ (name ++ (ws2 ++ ['}', '}'])))) ++ fill scope rest) := by
  have htok := tryToken_token ws1 ws2 name rest hname hnc hw1 hw2
  constructor
  · intro v hv
    rw [fill_cons_of_some scope _ _ _ _ htok, hv]
  · intro hv
    rw [fill_cons_of_some scope _ _ _ _ htok, hv]

theorem c2_fill_placeholder_witness :
    fill [("name", "VALUE")] ("\x7b\x7b name \x7d\x7d".toList) = "VALUE".toList
    ∧ fill [] ("\x7b\x7b name \x7d\x7d".toList) = "\x7b\x7b name \x7d\x7d".toList := by
  have e1 : "\x7b\x7b name \x7d\x7d".toList
      = '{' :: '{' :: ([' '] ++ ("name".toList ++ ([' '] ++ '}' :: '}' :: ([] : List Char)))) := by
    decide
  constructor
  · have h := (c2_fill_placeholder [("name", "VALUE")] [' '] [' '] ("name".toList) []
      (by decide) (by decide) (by decide) (by decide)).1 "VALUE" (by decide)
    rw [e1, h, fill_nil, List.append_nil]
  · have h := (c2_fill_placeholder [] [' '] [' '] ("name".toList) []
      (by decide) (by decide) (by decide) (by decide)).2 (by decide)
    rw [e1, h, fill_nil, List.append_nil]

/-- C9: the filler only substitutes names made of non-whitespace
non-`}` characters; a token with internal whitespace in the name, such
as `{{ two words }}`, never matches and is left unchanged for every
scope — including a scope that contains the exactly matching key
`"two words"`. -/
theorem c9_internal_whitespace_passthrough (scope : Scope) :
    fill scope ("\x7b\x7b two words \x7d\x7d".toList)
      = "\x7b\x7b two words \x7d\x7d".toList := by
  apply fill_of_drops_none
  intro nn
  rcases Nat.lt_or_ge nn 15 with h | h
  · interval_cases nn <;> decide
  · rw [List.drop_eq_nil_of_le (le_trans (by decide) h)]
    decide

/-- C5 evaluation: `summarize` for the Gemini protocol at concrete
bodies.  A body whose first paragraph is not followed by a blank line
(e.g. a single-line body) makes the loop finish without returning, so
the function returns `None` — not the accumulated text; and when a
blank line does follow, the returned text is the accumulation
`"\n".join` starting from the empty string, which carries a leading newline, so it
is not exactly the first run of non-blank lines either. -/
theorem c5_summarize_gemini_eval :
    summarizeGemini "hello" = none
    ∧ summarizeGemini "hello\n\nworld" = some "\nhello"
    ∧ summarizeGemini "\n\nfirst\nsecond\n\nrest" = some "\nfirst\nsecond" := by
  refine ⟨by decide, by decide, by decide⟩

theorem splitChar_ne_nil (sep : Char) (l : List Char) : splitChar sep l ≠ [] := by
  cases l with
  | nil => simp [splitChar]
  | cons c cs =>
    rw [splitChar]
    rcases h : splitChar sep cs with _ | ⟨p, ps⟩
    · simp
    · by_cases hc : c = sep <;> simp [hc]

theorem splitChar_cons (sep c : Char) (cs p : List Char) (ps : List (List Char))
    (h : splitChar sep cs = p :: ps) :
    splitChar sep (c :: cs) = if c = sep then [] :: p :: ps else (c :: p) :: ps := by
  rw [splitChar, h]

theorem splitChar_head (sep : Char) (l : List Char) :
    (splitChar sep l).head? = some (l.takeWhile (fun c => c != sep)) := by
  induction l with
  | nil => rfl
  | cons c cs ih =>
    rcases h : splitChar sep cs with _ | ⟨p, ps⟩
    · exact absurd h (splitChar_ne_nil sep cs)
    · rw [splitChar_cons sep c cs p ps h]
      by_cases hc : c = sep
      · rw [if_pos hc]
        simp [List.takeWhile_cons, hc]
      · rw [if_neg hc]
        have hp : p = cs.takeWhile (fun c2 => c2 != sep) := by
          rw [h] at ih
          simpa using ih
        subst hp
        simp [List.takeWhile_cons, hc]

theorem splitChar_second (sep : Char) (l : List Char) :
    (splitChar sep l)[1]? =
      if sep ∈ l
      then some (((l.dropWhile (fun c => c != sep)).tail).takeWhile (fun c => c != sep))
      else none := by
  induction l with
  | nil => simp [splitChar]
  | cons c cs ih =>
    rcases h : splitChar sep cs with _ | ⟨p, ps⟩
    · exact absurd h (splitChar_ne_nil sep cs)
    · rw [splitChar_cons sep c cs p ps h]
      by_cases hc : c = sep
      · rw [if_pos hc, if_pos (by simp [hc])]
        have hp : p = cs.takeWhile (fun c2 => c2 != sep) := by
          have hh := splitChar_head sep cs
          rw [h] at hh
          simpa using hh
        subst hp
        simp [List.dropWhile_cons, hc]
      · rw [if_neg hc]
        have hmem : (sep ∈ c :: cs) ↔ (sep ∈ cs) := by
          constructor
          · intro hx
            rcases List.mem_cons.mp hx with hx1 | hx2
            · exact absurd hx1.symm hc
            · exact hx2
          · exact fun hx => List.mem_cons_of_mem c hx
        have hgoal : (((c :: p) :: ps)[1]? : Option (List Char)) = ps[0]? := by
          simp [List.getElem?_cons_succ]
        have hih : ((p :: ps)[1]? : Option (List Char)) = ps[0]? := by
          simp [List.getElem?_cons_succ]
        rw [h] at ih
        rw [hgoal, ← hih, ih]
        by_cases hm : sep ∈ cs
        · rw [if_pos hm, if_pos (hmem.mpr hm), List.dropWhile_cons]
          simp [hc]
        · rw [if_neg hm, if_neg (fun hx => hm (hmem.mp hx))]

/-- C10: descriptor assembly derives `file_name` and `file_ext` from
`basename(path).split('.')[0]` and `[1]`.  When the base name contains
a dot, `file_name` is the segment before the first dot and `file_ext`
the segment between the first dot and the following dot (or the end);
when the base name contains no dot, the `[1]` subscript raises
`IndexError` (modelled `none`), so no descriptor is produced. -/
theorem c10_file_name_ext (path : List Char) :
    ('.' ∈ basenamePosix path →
      assembleNameExt path
        = some ((basenamePosix path).takeWhile (fun c => c != '.'),
            (((basenamePosix path).dropWhile (fun c => c != '.')).tail).takeWhile
              (fun c => c != '.')))
    ∧ ('.' ∉ basenamePosix path → assembleNameExt path = none) := by
  have h1 := splitChar_head '.' (basenamePosix path)
  have h2 := splitChar_second '.' (basenamePosix path)
  constructor
  · intro hmem
    rw [if_pos hmem] at h2
    rw [assembleNameExt]
    rcases hsp : splitChar '.' (basenamePosix path) with _ | ⟨a, rest1⟩
    · exact absurd hsp (splitChar_ne_nil _ _)
    · rcases rest1 with _ | ⟨b, rest2⟩
      · rw [hsp] at h2
        simp at h2
      · rw [hsp] at h1 h2
        have ha : a = (basenamePosix path).takeWhile (fun c => c != '.') := by
          simpa using h1
        have hb : b = (((basenamePosix path).dropWhile (fun c => c != '.')).tail).takeWhile
            (fun c => c != '.') := by
          simpa using h2
        rw [ha, hb]
  · intro hmem
    rw [if_neg hmem] at h2
    rw [assembleNameExt]
    rcases hsp : splitChar '.' (basenamePosix path) with _ | ⟨a, rest1⟩
    · exact absurd hsp (splitChar_ne_nil _ _)
    · rcases rest1 with _ | ⟨b, rest2⟩
      · rfl
      · rw [hsp] at h2
        simp at h2

theorem c10_file_name_ext_witness :
    assembleNameExt ("content/post.md".toList) = some ("post".toList, "md".toList)
    ∧ assembleNameExt ("content/archive.tar.gz".toList)
        = some ("archive".toList, "tar".toList)
    ∧ assembleNameExt ("content/LICENSE".toList) = none := by
  refine ⟨?_, ?_, ?_⟩
  · have h := (c10_file_name_ext ("content/post.md".toList)).1 (by decide)
    rw [h]; decide
  · have h := (c10_file_name_ext ("content/archive.tar.gz".toList)).1 (by decide)
    rw [h]; decide
  · exact (c10_file_name_ext ("content/LICENSE".toList)).2 (by decide)

theorem alookup_bucketAppend_self (b : Dict (List Desc)) (v : String) (d : Desc) :
    alookup (bucketAppend b v d) v = some (((alookup b v).getD []) ++ [d]) := by
  induction b with
  | nil => simp [bucketAppend, alookup_cons, alookup_nil]
  | cons hd tl ih =>
    rcases hd with ⟨k, l⟩
    by_cases hk : k = v
    · subst hk
      simp [bucketAppend, alookup_cons]
    · simp [bucketAppend, hk, alookup_cons, ih]

theorem alookup_bucketAppend_ne (b : Dict (List Desc)) (v v' : String) (d : Desc)
    (h : v' ≠ v) : alookup (bucketAppend b v d) v' = alookup b v' := by
  induction b with
  | nil =>
    rw [bucketAppend, alookup_cons, if_neg (fun hh => h hh.symm)]
  | cons hd tl ih =>
    rcases hd with ⟨k, l⟩
    by_cases hk : k = v
    · subst hk
      rw [bucketAppend, if_pos rfl, alookup_cons, alookup_cons,
        if_neg (fun hh => h hh.symm), if_neg (fun hh => h hh.symm)]
    · rw [bucketAppend, if_neg hk, alookup_cons, alookup_cons, ih]

/-- After appending a descriptor under a list of values, the
descriptor is in the bucket of `v` iff `v` is one of the values or it
already was in the bucket of `v`. -/
theorem mem_bucket_foldl (d : Desc) (vs : List String) (b : Dict (List Desc)) (v : String) :
    (∃ bl, alookup (vs.foldl (fun b2 v2 => bucketAppend b2 v2 d) b) v = some bl ∧ d ∈ bl)
      ↔ (v ∈ vs ∨ ∃ bl, alookup b v = some bl ∧ d ∈ bl) := by
  induction vs generalizing b with
  | nil => simp
  | cons v0 vs ih =>
    rw [List.foldl_cons, ih]
    by_cases hv : v = v0
    · subst hv
      have hsome : ∃ bl, alookup (bucketAppend b v d) v = some bl ∧ d ∈ bl :=
        ⟨_, alookup_bucketAppend_self b v d, by simp⟩
      constructor
      · intro _
        exact Or.inl (List.mem_cons_self v vs)
      · intro _
        exact Or.inr hsome
    · rw [alookup_bucketAppend_ne b v0 v d hv]
      rw [List.mem_cons]
      constructor
      · rintro (h | h)
        · exact Or.inl (Or.inr h)
        · exact Or.inr h
      · rintro ((h | h) | h)
        · exact absurd h hv
        · exact Or.inl h
        · exact Or.inr h

/-- C7: the grouper splits a taxonomy annotation on commas, strips
each part, and appends the descriptor under each resulting value
(first conjunct: a descriptor lands in exactly the buckets of the
split-and-stripped values, besides those it was already in); the
annotation value `"x, y,z"` contributes membership in exactly the
values `x`, `y`, `z`. -/
theorem c7_taxonomy_split (d : Desc) (buckets : Dict (List Desc))
    (hfresh : ∀ v bl, alookup buckets v = some bl → d ∉ bl) :
    (∀ ann v,
      (∃ bl, alookup (groupDescriptor ann d buckets) v = some bl ∧ d ∈ bl)
        ↔ (v ∈ splitAndTrim ann ∨ ∃ bl, alookup buckets v = some bl ∧ d ∈ bl))
    ∧ splitAndTrim "x, y,z" = ["x", "y", "z"]
    ∧ (∀ v,
      (∃ bl, alookup (groupDescriptor "x, y,z" d buckets) v = some bl ∧ d ∈ bl)
        ↔ (v = "x" ∨ v = "y" ∨ v = "z")) := by
  have hgroup : ∀ ann,
      groupDescriptor ann d buckets
        = (splitAndTrim ann).foldl (fun b2 v2 => bucketAppend b2 v2 d) buckets := by
    intro ann
    rw [groupDescriptor, splitAndTrim, List.foldl_map]
  have hmain : ∀ ann v,
      (∃ bl, alookup (groupDescriptor ann d buckets) v = some bl ∧ d ∈ bl)
        ↔ (v ∈ splitAndTrim ann ∨ ∃ bl, alookup buckets v = some bl ∧ d ∈ bl) := by
    intro ann v
    rw [hgroup ann, mem_bucket_foldl]
  refine ⟨hmain, by decide, ?_⟩
  intro v
  rw [hmain "x, y,z" v, show splitAndTrim "x, y,z" = ["x", "y", "z"] from by decide]
  simp only [List.mem_cons, List.not_mem_nil, or_false]
  constructor
  · rintro (h | ⟨bl, hbl, hd⟩)
    · exact h
    · exact absurd hd (hfresh v bl hbl)
  · exact fun h => Or.inl h

theorem c7_taxonomy_split_witness :
    ∃ bl, alookup (groupDescriptor "x, y,z" [("title", "t")] []) "y" = some bl
      ∧ [("title", "t")] ∈ bl := by
  have h := (c7_taxonomy_split [("title", "t")] []
    (fun v bl hbl => by rw [alookup_nil] at hbl; cases hbl)).2.2 "y"
  exact h.mpr (Or.inr (Or.inl rfl))

/-- `alookup` is `none` exactly off the key set. -/
theorem alookup_eq_none_of_not_mem_keys {α : Type} (d : Dict α) (k : String)
    (h : k ∉ d.map (fun p => p.1)) : alookup d k = none := by
  induction d with
  | nil => rfl
  | cons hd tl ih =>
    rcases hd with ⟨k0, v0⟩
    rw [alookup_cons, if_neg (fun hh => h (by simp [hh]))]
    exact ih (fun hh => h (by simp [hh]))

/-- Removing the only entry with key `k` makes `k` unresolvable
(template dicts have unique keys). -/
theorem alookup_dpop_self_of_nodup {α : Type} (d : Dict α) (k : String)
    (hnodup : (d.map (fun p => p.1)).Nodup) : alookup (dpop d k) k = none := by
  induction d with
  | nil => rfl
  | cons hd tl ih =>
    rcases hd with ⟨k0, v0⟩
    have hmap : ((⟨k0, v0⟩ :: tl : Dict α).map (fun p => p.1))
        = k0 :: tl.map (fun p => p.1) := rfl
    rw [hmap] at hnodup
    rcases List.nodup_cons.mp hnodup with ⟨hk0, htl⟩
    by_cases h0 : k0 = k
    · subst h0
      rw [dpop, List.eraseP_cons_of_pos (by simp)]
      exact alookup_eq_none_of_not_mem_keys tl k0 hk0
    · rw [dpop, List.eraseP_cons_of_neg (by simpa using h0), alookup_cons, if_neg h0]
      exact ih htl

/-- C3 (amended): for a template whose name splits on `_` into
`[c0, p1]`, the composer substitutes the child's full content into the
`body` placeholder of the template named `p1` (the parent) in a single
`fill` pass, removes the child's entry, and stores the merged result
under `c0` — the segment *before* the underscore, i.e. the child's
base name — replacing any same-named standalone template, while the
parent's own entry `p1` stays untouched.  The last two conjuncts show
the single-pass substitution on the spec's example, including that
placeholders inside the child's content are not resolved. -/
theorem c3_compose_amended (templates : Dict String) (tpl_name c0 p1 parentV childV : String)
    (hnodup : (templates.map (fun p => p.1)).Nodup)
    (hsplit : pySplitStr '_' tpl_name = [c0, p1])
    (hparent : alookup templates p1 = some parentV)
    (hchild : alookup templates tpl_name = some childV)
    (hne1 : c0 ≠ tpl_name) (hne2 : p1 ≠ tpl_name) (hne3 : p1 ≠ c0) :
    composeStep templates tpl_name
      = some (dset (dpop templates tpl_name) c0 (fillS [("body", childV)] parentV))
    ∧ alookup (dset (dpop templates tpl_name) c0 (fillS [("body", childV)] parentV)) c0
        = some (fillS [("body", childV)] parentV)
    ∧ alookup (dset (dpop templates tpl_name) c0 (fillS [("body", childV)] parentV)) tpl_name
        = none
    ∧ alookup (dset (dpop templates tpl_name) c0 (fillS [("body", childV)] parentV)) p1
        = some parentV
    ∧ fillS [("body", "<p>hi</p>")] "<head>\x7b\x7b body \x7d\x7d</head>"
        = "<head><p>hi</p></head>"
    ∧ fillS [("body", "\x7b\x7b inner \x7d\x7d")] "<head>\x7b\x7b body \x7d\x7d</head>"
        = "<head>\x7b\x7b inner \x7d\x7d</head>" := by
  refine ⟨?_, alookup_dset_self _ _ _, ?_, ?_, by decide, by decide⟩
  · rw [composeStep, hsplit]
    have e1 : ([c0, p1].getD 1 "") = p1 := rfl
    have e0 : ([c0, p1].getD 0 "") = c0 := rfl
    rw [e1, e0, hparent, hchild]
  · rw [alookup_dset_ne _ _ _ _ (fun hh => hne1 hh.symm)]
    exact alookup_dpop_self_of_nodup templates tpl_name hnodup
  · rw [alookup_dset_ne _ _ _ _ hne3, alookup_dpop_ne _ _ _ hne2]
    exact hparent

theorem c3_compose_amended_witness :
    composeStep [("base", "<head>\x7b\x7b body \x7d\x7d</head>"), ("post_base", "<p>hi</p>")]
        "post_base"
      = some [("base", "<head>\x7b\x7b body \x7d\x7d</head>"),
          ("post", "<head><p>hi</p></head>")] := by
  have h := (c3_compose_amended
    [("base", "<head>\x7b\x7b body \x7d\x7d</head>"), ("post_base", "<p>hi</p>")]
    "post_base" "post" "base" "<head>\x7b\x7b body \x7d\x7d</head>" "<p>hi</p>"
    (by decide) (by decide) (by decide) (by decide)
    (by decide) (by decide) (by decide)).1
  rw [h]
  decide

/-- C3 counterexample: on the spec's own example (parent template
`base = "<head>{{ body }}</head>"`, child template `post_base =
"<p>hi</p>"`), the merged result is NOT stored under the parent's
name: the entry under `"base"` still holds the unmerged parent, and
the merged template is stored under `"post"`, the segment before the
underscore of the child's name. -/
theorem c3_compose_counterexample :
    alookup ((composeStep
        [("base", "<head>\x7b\x7b body \x7d\x7d</head>"), ("post_base", "<p>hi</p>")]
        "post_base").getD []) "base" ≠ some "<head><p>hi</p></head>"
    ∧ alookup ((composeStep
        [("base", "<head>\x7b\x7b body \x7d\x7d</head>"), ("post_base", "<p>hi</p>")]
        "post_base").getD []) "base" = some "<head>\x7b\x7b body \x7d\x7d</head>"
    ∧ alookup ((composeStep
        [("base", "<head>\x7b\x7b body \x7d\x7d</head>"), ("post_base", "<p>hi</p>")]
        "post_base").getD []) "post" = some "<head><p>hi</p></head>" := by
  refine ⟨by decide, by decide, by decide⟩

theorem kwargsMerge_some {a b s : Scope} (h : kwargsMerge a b = some s) : s = a ++ b := by
  by_cases hc : (b.any (fun p => (alookup a p.1).isSome)) = true
  · rw [kwargsMerge, if_pos hc] at h
    simp at h
  · rw [kwargsMerge, if_neg hc] at h
    exact (Option.some.inj h).symm

theorem finalDocScope_some {d config dynamic_vars output_variables s : Scope}
    (h : finalDocScope d config dynamic_vars output_variables = some s) :
    s = ((d ++ config) ++ dynamic_vars) ++ output_variables := by
  rw [finalDocScope] at h
  split at h
  · exact absurd h (by simp)
  · rename_i s1 h1
    split at h
    · exact absurd h (by simp)
    · rename_i s2 h2
      rw [kwargsMerge_some h, kwargsMerge_some h2, kwargsMerge_some h1]

/-- C1 (amended): in `fill_index`, the item scope is the dict merge
`{**config, **taxonomy_variables, **term_variables,
**output_variables, **dynamic_vars, **d}`, so lookup follows exactly
the claimed precedence chain with the descriptor's own fields
strongest (first conjunct).  In the final per-document generation,
however, the layers are passed as keyword-argument expansions in the
order descriptor, configuration, dynamic variables, pool outputs: when
all layers are pairwise disjoint the built scope still resolves every
descriptor key to the descriptor's value (second conjunct), but any
key shared between the descriptor and the configuration raises a
`TypeError` — the call fails instead of letting the descriptor
override (third conjunct). -/
theorem c1_scope_precedence :
    (∀ config taxonomy_variables term_variables output_variables dynamic_vars d k,
      alookup (indexItemScope config taxonomy_variables term_variables output_variables
          dynamic_vars d) k
        = oOr (alookup d k) (oOr (alookup dynamic_vars k) (oOr (alookup output_variables k)
            (oOr (alookup term_variables k) (oOr (alookup taxonomy_variables k)
              (alookup config k))))))
    ∧ (∀ d config dynamic_vars output_variables s,
        finalDocScope d config dynamic_vars output_variables = some s →
        ∀ k v, alookup d k = some v → alookup s k = some v)
    ∧ (∀ d config dynamic_vars output_variables k,
        alookup d k ≠ none → alookup config k ≠ none →
        finalDocScope d config dynamic_vars output_variables = none) := by
  refine ⟨?_, ?_, ?_⟩
  · intro config tax term pool dyn d k
    simp only [indexItemScope, alookup_dmerge]
  · intro d config dyn pool s hs k v hd
    rw [finalDocScope_some hs, alookup_append, alookup_append, alookup_append, hd]
    rfl
  · intro d config dyn pool k hd hc
    rcases hcs : alookup config k with _ | v
    · exact absurd hcs hc
    · rcases hf : config.find? (fun p => p.1 == k) with _ | p
      · rw [alookup, hf] at hcs
        simp at hcs
      · have hpk : p.1 = k := by
          have hps := List.find?_some hf
          simpa using hps
        have hpmem := List.mem_of_find?_eq_some hf
        have hnone : kwargsMerge d config = none := by
          rw [kwargsMerge, if_pos]
          refine List.any_eq_true.mpr ⟨p, hpmem, ?_⟩
          rw [hpk]
          rcases hdk : alookup d k with _ | w
          · exact absurd hdk hd
          · rfl
        rw [finalDocScope, hnone]

/-- C1 counterexample: in the final per-document phase, a descriptor
field shared with the configuration does not take precedence — the
keyword expansion `fill(tpl, **d, **config, ...)` raises `TypeError`
(modelled `none`), so no scope is built at all. -/
theorem c1_scope_precedence_counterexample :
    finalDocScope [("title", "from-descriptor")] [("title", "from-config")] [] [] = none := by
  decide

theorem c1_scope_precedence_witness :
    ∃ s, finalDocScope [("a", "1")] [("b", "2")] [] [] = some s
      ∧ alookup s "a" = some "1" := by
  refine ⟨(([("a", "1")] ++ [("b", "2")]) ++ []) ++ [], by decide, ?_⟩
  exact (c1_scope_precedence).2.1 [("a", "1")] [("b", "2")] [] [] _ (by decide) "a" "1"
    (by decide)

/-- C4: the Value Index descriptor list is sorted by the configured
`order_by` key (default `date`), descending unless `order_direction`
is exactly `asc` (then ascending); it is truncated to the first
`limit` entries when a limit is configured and kept whole otherwise;
and with the default direction and sort key, descriptors with pairwise
distinct dates come out (and stay, after any truncation) in strictly
descending date order. -/
theorem c4_index_sort (cfg : IndexConfig) (dbt : List Desc) :
    List.Perm (indexSorted cfg dbt) dbt
    ∧ (cfg.order_direction ≠ some "asc" →
        (indexSorted cfg dbt).Pairwise (fun a b =>
          dget b (indexSortKey cfg) ≤ dget a (indexSortKey cfg)))
    ∧ (cfg.order_direction = some "asc" →
        (indexSorted cfg dbt).Pairwise (fun a b =>
          dget a (indexSortKey cfg) ≤ dget b (indexSortKey cfg)))
    ∧ (∀ n, cfg.limit = some n → indexRetained cfg dbt = (indexSorted cfg dbt).take n)
    ∧ (cfg.limit = none → indexRetained cfg dbt = indexSorted cfg dbt)
    ∧ (cfg.order_direction = none → cfg.order_by = none →
        dbt.Pairwise (fun a b => dget a "date" ≠ dget b "date") →
        (indexRetained cfg dbt).Pairwise (fun a b => dget b "date" < dget a "date")) := by
  have hperm := pySorted_perm (fun d => dget d (indexSortKey cfg)) (indexReverse cfg) dbt
  have hdesc : cfg.order_direction ≠ some "asc" →
      (indexSorted cfg dbt).Pairwise (fun a b =>
        dget b (indexSortKey cfg) ≤ dget a (indexSortKey cfg)) := by
    intro hdir
    have hrev : indexReverse cfg = true := by
      rw [indexReverse, if_neg hdir]
    have hsorteq : indexSorted cfg dbt
        = pySorted (fun d => dget d (indexSortKey cfg)) true dbt := by
      rw [indexSorted, hrev]
    rw [hsorteq]
    refine (pySorted_pairwise (fun d => dget d (indexSortKey cfg)) true dbt).imp ?_
    intro a b hab
    simpa [pyLe] using hab
  refine ⟨hperm, hdesc, ?_, ?_, ?_, ?_⟩
  · intro hdir
    have hrev : indexReverse cfg = false := by
      rw [indexReverse, if_pos hdir]
    have hsorteq : indexSorted cfg dbt
        = pySorted (fun d => dget d (indexSortKey cfg)) false dbt := by
      rw [indexSorted, hrev]
    rw [hsorteq]
    refine (pySorted_pairwise (fun d => dget d (indexSortKey cfg)) false dbt).imp ?_
    intro a b hab
    simpa [pyLe] using hab
  · intro n hn
    rw [indexRetained, hn]
  · intro hn
    rw [indexRetained, hn]
  · intro hdir hby hdates
    have hkey : indexSortKey cfg = "date" := by
      rw [indexSortKey, hby]
      rfl
    have hle := hdesc (by rw [hdir]; simp)
    rw [hkey] at hle
    have hne : (indexSorted cfg dbt).Pairwise (fun a b => dget a "date" ≠ dget b "date") :=
      (hperm.pairwise_iff (fun {a b} hab => Ne.symm hab)).mpr hdates
    have hlt : (indexSorted cfg dbt).Pairwise (fun a b => dget b "date" < dget a "date") := by
      refine (hle.and hne).imp ?_
      intro a b hab
      exact lt_of_le_of_ne hab.1 (Ne.symm hab.2)
    have hsub : List.Sublist (indexRetained cfg dbt) (indexSorted cfg dbt) := by
      rw [indexRetained]
      rcases cfg.limit with _ | n
      · exact List.Sublist.refl _
      · exact List.take_sublist n _
    exact hlt.sublist hsub

theorem c4_index_sort_witness :
    (indexRetained ⟨"idx", "tpl", "item", none, none, none, []⟩
        [[("date", "2020-01-01")], [("date", "2021-06-15")], [("date", "2019-03-02")]]).Pairwise
      (fun a b => dget b "date" < dget a "date") :=
  (c4_index_sort ⟨"idx", "tpl", "item", none, none, none, []⟩
    [[("date", "2020-01-01")], [("date", "2021-06-15")], [("date", "2019-03-02")]]).2.2.2.2.2
    rfl rfl (by decide)

/-- C8: when a Value List is configured with `order_direction: desc`
and `order_by: count`, the rendered value set is the taxonomy's values
sorted by per-value descriptor count, largest first, before any
truncation by `limit`; in particular a taxonomy whose values carry
counts a=3, b=1, c=2 (in any dict order) renders as [a, c, b]. -/
theorem c8_count_sort (vl : ValueListConfig) (tmap : Dict (List Desc))
    (hdir : vl.order_direction = some "desc") (hby : vl.order_by = some "count") :
    (vlSortedKeys vl tmap).Pairwise (fun a b => countOf tmap b ≤ countOf tmap a)
    ∧ List.Perm (vlSortedKeys vl tmap) (tmap.map (fun p => p.1))
    ∧ (∀ n, vl.limit = some n → vlRetainedKeys vl tmap = (vlSortedKeys vl tmap).take n)
    ∧ (vl.limit = none → vlRetainedKeys vl tmap = vlSortedKeys vl tmap)
    ∧ (tmap ∈ ([
        [("a", [[], [], []]), ("b", [[]]), ("c", [[], []])],
        [("a", [[], [], []]), ("c", [[], []]), ("b", [[]])],
        [("b", [[]]), ("a", [[], [], []]), ("c", [[], []])],
        [("b", [[]]), ("c", [[], []]), ("a", [[], [], []])],
        [("c", [[], []]), ("a", [[], [], []]), ("b", [[]])],
        [("c", [[], []]), ("b", [[]]), ("a", [[], [], []])]] : List (Dict (List Desc))) →
        vlSortedKeys vl tmap = ["a", "c", "b"]) := by
  have hkeys : vlSortedKeys vl tmap
      = pySorted (fun k => countOf tmap k) true (tmap.map (fun p => p.1)) := by
    rw [vlSortedKeys, if_neg (by rw [hdir]; simp),
      if_pos (show vlSortByCount vl = true from by rw [vlSortByCount, hby]; rfl),
      show vlReverse vl = true from by rw [vlReverse, hdir]; rfl]
  refine ⟨?_, ?_, ?_, ?_, ?_⟩
  · rw [hkeys]
    have hp := pySorted_pairwise (fun k => countOf tmap k) true (tmap.map (fun p => p.1))
    refine hp.imp ?_
    intro a b hab
    simpa [pyLe] using hab
  · rw [hkeys]
    exact pySorted_perm _ _ _
  · intro n hn
    rw [vlRetainedKeys, hn]
  · intro hn
    rw [vlRetainedKeys, hn]
  · intro h6
    rw [hkeys]
    simp only [List.mem_cons, List.not_mem_nil, or_false] at h6
    rcases h6 with h | h | h | h | h | h <;> rw [h] <;> decide

theorem c8_count_sort_witness :
    vlSortedKeys ⟨"vl", "tpl", "item", some "count", some "desc", none, none⟩
        [("b", [[]]), ("c", [[], []]), ("a", [[], [], []])] = ["a", "c", "b"] :=
  (c8_count_sort ⟨"vl", "tpl", "item", some "count", some "desc", none, none⟩
    [("b", [[]]), ("c", [[], []]), ("a", [[], [], []])] rfl rfl).2.2.2.2
    (by simp)

/-- C6: when a Value List names an `inlined_index_id`, each retained
taxonomy value looks up the pool under the key
`{taxonomy id}_{inlined_index_id}_{normalized value}`.  A hit injects
the pool's exact string into the item scope as `taxonomy_value_list`
(first conjunct); a miss is a hard failure: the per-value variables
cannot be built (second conjunct), `fill_value_list` as a whole fails
(third conjunct), and the whole variable-generation phase of the
current format stops (fourth conjunct) instead of continuing with a
missing value. -/
theorem c6_inlined_index_hard_dependency (taxonomy_config : TaxonomyConfig)
    (vl : ValueListConfig) (tmap : Dict (List Desc)) (pool : Scope)
    (term iid : String) (hiid : vl.inlined_index_id = some iid) :
    (∀ s, alookup pool (taxonomy_config.id ++ "_" ++ iid ++ "_" ++ normalize_string term)
        = some s →
      ∃ tv, vlTermVariables taxonomy_config vl tmap pool term = some tv
        ∧ alookup tv "taxonomy_value_list" = some s)
    ∧ (alookup pool (taxonomy_config.id ++ "_" ++ iid ++ "_" ++ normalize_string term)
        = none →
      vlTermVariables taxonomy_config vl tmap pool term = none)
    ∧ (∀ config templates tid dbtx dynamic_vars,
        term ∈ vlRetainedKeys vl tmap →
        alookup dbtx tid = some tmap →
        alookup pool (taxonomy_config.id ++ "_" ++ iid ++ "_" ++ normalize_string term)
          = none →
        fill_value_list config taxonomy_config templates tid vl dbtx dynamic_vars pool
          = none)
    ∧ (∀ config templates dbtx dynamic_vars rest,
        fill_value_list config taxonomy_config templates taxonomy_config.id vl dbtx
          dynamic_vars pool = none →
        runValueListVariablePhase config templates dbtx dynamic_vars
          ((taxonomy_config, vl) :: rest) pool = none) := by
  have hmiss : alookup pool (taxonomy_config.id ++ "_" ++ iid ++ "_" ++ normalize_string term)
        = none →
      vlTermVariables taxonomy_config vl tmap pool term = none := by
    intro hp
    simp only [vlTermVariables, hiid, hp]
  refine ⟨?_, hmiss, ?_, ?_⟩
  · intro s hp
    refine ⟨dset [("taxonomy_value", term), ("taxonomy_value_lower", pyLower term),
        ("taxonomy_value_normalized", normalize_string term),
        ("taxonomy_value_posts_count", toString (countOf tmap term))]
        "taxonomy_value_list" s, ?_, ?_⟩
    · simp only [vlTermVariables, hiid, hp]
    · exact alookup_dset_self _ _ _
  · intro config templates tid dbtx dynamic_vars hterm hmap hp
    simp only [fill_value_list, hmap]
    rw [mapMOption_eq_none_of_mem hterm (by simp only [hmiss hp])]
  · intro config templates dbtx dynamic_vars rest hfail
    simp only [runValueListVariablePhase, hfail]

theorem c6_inlined_index_hard_dependency_witness :
    fill_value_list [] ⟨"tags", "Tags", none⟩ []
      "tags" ⟨"taglist", "tpl", "item", none, none, none, some "idx"⟩
      [("tags", [("go", [[]])])] [] [] = none := by
  have h := (c6_inlined_index_hard_dependency ⟨"tags", "Tags", none⟩
    ⟨"taglist", "tpl", "item", none, none, none, some "idx"⟩
    [("go", [[]])] [] "go" "idx" rfl).2.2.1 [] [] "tags" [("tags", [("go", [[]])])] []
    (by decide) (by decide) (by decide)
  exact h

end Picogen
